import Mathlib

/-!
Verification of the warehouse order picker (src/app/service.py).

The Python class `OrderPicker` holds a backlog `self.orders` (a list) and an
inventory `self.inventory` (a dict from item name to integer quantity), with
two methods:

* `submit_order(order)` checks the four required keys and appends the raw
  record to the backlog, raising `ValueError("Missing field:...")` otherwise;
* `next_order()` filters the backlog by stock, sorts the eligible orders by
  `(CATEGORY_PRIORITY.get(category, 0), timestamp)` with Python's stable
  `sorted`, takes element `[0]` (an `IndexError` when empty), debits the
  winner's quantity from `self.inventory[item]` (a `KeyError` when the item
  is absent) and returns the winner.

The embedding below models Python dicts as association lists (first
occurrence wins, as dict keys are unique), Python ints as `Int`, exceptions
as explicit error values paired with the unchanged state, and Python's
stable sort with Mathlib's stable `List.insertionSort`.  Timestamps are
strings compared lexicographically by code point, i.e. by their character
lists.
-/

namespace Warehouse

/-- A Python value as stored in a raw submitted record: the fields of an
order are strings or integers, and no validation beyond key presence is
performed on them. -/
inductive PyVal where
  | str (s : String)
  | int (n : Int)
deriving DecidableEq

/-- A raw order record, as handed to `submit_order`: a Python dict modelled
as an association list of field name to value. -/
abbrev RawRec := List (String × PyVal)

/-- Python's `f in order` membership test on a dict's keys. -/
def hasKey (d : RawRec) (k : String) : Bool :=
  d.any (fun p => p.1 = k)

/-- The inventory: a Python dict from item name to integer quantity,
modelled as an association list. -/
abbrev Inventory := List (String × Int)

/-- Python's `self.inventory.get(k, 0)`: the value at the first occurrence
of key `k`, or `0` when `k` is absent. -/
def invGet : Inventory → String → Int
  | [], _ => 0
  | (k₀, v) :: rest, k => if k₀ = k then v else invGet rest k

/-- Python's `k in self.inventory` key-membership test. -/
def invContains : Inventory → String → Bool
  | [], _ => false
  | (k₀, _) :: rest, k => k₀ = k || invContains rest k

/-- Python's `self.inventory[k] -= q`: subtract `q` at the first occurrence
of key `k`; `none` models the `KeyError` raised when `k` is absent (the
read happens before any write, so on `KeyError` the dict is unchanged). -/
def invDebit : Inventory → String → Int → Option Inventory
  | [], _, _ => none
  | (k₀, v) :: rest, k, q =>
    if k₀ = k then some ((k₀, v - q) :: rest)
    else (invDebit rest k q).map (fun r => (k₀, v) :: r)

/-- A well-formed order in the backlog, with the four fields `next_order`
reads.  `quantity` is an unbounded Python integer (the source performs no
sign or type validation), `category` and `timestamp` are strings. -/
structure Order where
  item : String
  quantity : Int
  category : String
  timestamp : String
deriving DecidableEq

/-- The class constant `CATEGORY_PRIORITY = {'perishable':0,'non_perishable':1}`. -/
def CATEGORY_PRIORITY : List (String × Nat) := [("perishable", 0), ("non_perishable", 1)]

/-- A dict lookup with default `0` on a priority table, modelling
`CATEGORY_PRIORITY.get(c, 0)`. -/
def prioLookup : List (String × Nat) → String → Nat
  | [], _ => 0
  | (k₀, v) :: rest, k => if k₀ = k then v else prioLookup rest k

/-- Lookup `self.CATEGORY_PRIORITY.get(o['category'], 0)`: priority `0` for
`perishable`, `1` for `non_perishable`, and the default `0` for any other
category string. -/
def categoryPriority (c : String) : Nat :=
  prioLookup CATEGORY_PRIORITY c

/-- The Python sort key `(priority, timestamp)` compared as Python compares
tuples: lexicographically, with the string timestamp compared by code
points, i.e. by its list of characters. -/
def sortKey (o : Order) : Lex (Nat × List Char) :=
  toLex (categoryPriority o.category, o.timestamp.data)

/-- The total preorder the eligible orders are sorted by. -/
def pickLE (a b : Order) : Prop :=
  sortKey a ≤ sortKey b

instance : DecidableRel pickLE :=
  fun a b => inferInstanceAs (Decidable (sortKey a ≤ sortKey b))

instance : IsTotal Order pickLE :=
  ⟨fun a b => le_total (sortKey a) (sortKey b)⟩

instance : IsTrans Order pickLE :=
  ⟨fun _ _ _ h₁ h₂ => le_trans h₁ h₂⟩

/-- The picker state: the backlog list `self.orders` (here at the
well-formed level used by `next_order`) and the dict `self.inventory`. -/
structure OrderPicker where
  orders : List Order
  inventory : Inventory
deriving DecidableEq

/-- The two exceptions `next_order` can raise: `IndexError` from
`sorted_order[0]` on an empty eligible subset, and `KeyError` from
`self.inventory[item]` when the selected item is absent from the dict. -/
inductive PickError where
  | indexError
  | keyError
deriving DecidableEq

/-- The list comprehension
`[o for o in self.orders if self.inventory.get(o['item'],0) >= o['quantity']]`. -/
def available_order (p : OrderPicker) : List Order :=
  p.orders.filter (fun o => invGet p.inventory o.item ≥ o.quantity)

/-- The call `sorted(available_order, key=...)`: Python's `sorted` is a stable sort,
modelled by Mathlib's stable `insertionSort` under `pickLE`. -/
def sorted_order (p : OrderPicker) : List Order :=
  (available_order p).insertionSort pickLE

/-- Method `next_order(self)`: take `sorted_order[0]` (raising `IndexError` when
the eligible subset is empty), debit its quantity from
`self.inventory[item]` (raising `KeyError` when the item is absent), and
return it.  An exception leaves the state unchanged. -/
def next_order (p : OrderPicker) : Except PickError Order × OrderPicker :=
  match sorted_order p with
  | [] => (Except.error PickError.indexError, p)
  | o :: _ =>
    match invDebit p.inventory o.item o.quantity with
    | none => (Except.error PickError.keyError, p)
    | some inv => (Except.ok o, ⟨p.orders, inv⟩)

/-- Iterated picking: the state after `n` consecutive `next_order` calls,
each applied to the state the previous call left behind (an exception
leaves the state unchanged). -/
def pickSteps : Nat → OrderPicker → OrderPicker
  | 0, p => p
  | n + 1, p => (next_order (pickSteps n p)).2

/-- The picker state at the submission level of abstraction, where the
backlog holds the raw records exactly as submitted. -/
structure OrderPickerR where
  orders : List RawRec
  inventory : Inventory
deriving DecidableEq

/-- The list `required_field = ['item','quantity','category','timestamp']`. -/
def required_field : List String := ["item", "quantity", "category", "timestamp"]

/-- The comprehension `missing = [f for f in required_field if f not in order]`. -/
def missingFields (order : RawRec) : List String :=
  required_field.filter (fun f => ! hasKey order f)

/-- Method `submit_order(self, order)`: if any required field is missing raise
`ValueError(f"Missing field:{','.join(missing)}")`, leaving the state
unchanged; otherwise append the record unchanged to the backlog. -/
def submit_order (p : OrderPickerR) (order : RawRec) : Except String Unit × OrderPickerR :=
  let missing := missingFields order
  if missing = [] then
    (Except.ok (), ⟨p.orders ++ [order], p.inventory⟩)
  else
    (Except.error ("Missing field:" ++ String.intercalate "," missing), p)

/-! ### Generic facts about the head of a stable insertion sort -/

/-- The head of a stable sort splits the input: everything strictly before
the chosen element in the input refuses to sort at-or-before it. -/
theorem insertionSort_split {α : Type} (r : α → α → Prop) [DecidableRel r] :
    ∀ (l : List α) (o : α) (rest : List α),
      l.insertionSort r = o :: rest →
      ∃ l₁ l₂, l = l₁ ++ o :: l₂ ∧ ∀ x ∈ l₁, ¬ r x o := by
  intro l
  induction l with
  | nil =>
    intro o rest h
    simp [List.insertionSort] at h
  | cons a l ih =>
    intro o rest h
    rw [List.insertionSort] at h
    cases hs : l.insertionSort r with
    | nil =>
      rw [hs] at h
      simp only [List.orderedInsert] at h
      injection h with h₁ h₂
      subst h₁
      exact ⟨[], l, rfl, by simp⟩
    | cons b bs =>
      rw [hs] at h
      by_cases hab : r a b
      · rw [List.orderedInsert, if_pos hab] at h
        injection h with h₁ h₂
        subst h₁
        exact ⟨[], l, rfl, by simp⟩
      · rw [List.orderedInsert, if_neg hab] at h
        injection h with h₁ h₂
        obtain ⟨l₁, l₂, hl, hl₁⟩ := ih b bs hs
        refine ⟨a :: l₁, l₂, by rw [hl, h₁]; rfl, ?_⟩
        intro x hx
        rcases List.mem_cons.mp hx with hxa | hx₁
        · subst hxa
          rw [← h₁]
          exact hab
        · rw [← h₁]
          exact hl₁ x hx₁

/-- The head of the sorted list is below every element of the input. -/
theorem insertionSort_head_min {α : Type} (r : α → α → Prop) [DecidableRel r]
    [IsTotal α r] [IsTrans α r] (l : List α) (o : α) (rest : List α)
    (h : l.insertionSort r = o :: rest) :
    ∀ x ∈ l, r o x := by
  intro x hx
  have hmem : x ∈ o :: rest := by
    rw [← h]
    exact ((List.perm_insertionSort r l).mem_iff).mpr hx
  rcases List.mem_cons.mp hmem with hxo | hx₁
  · subst hxo
    rcases IsTotal.total (r := r) x x with h₀ | h₀ <;> exact h₀
  · have hs := List.sorted_insertionSort r l
    rw [h, List.sorted_cons] at hs
    exact hs.1 x hx₁

/-- An element that is minimal for `r` and whose predecessors in the list
all refuse `r · o` is unique: the split pins down the chosen element. -/
theorem first_min_unique {α : Type} (r : α → α → Prop)
    (l l₁ l₂ m₁ m₂ : List α) (o o' : α)
    (hl : l = l₁ ++ o :: l₂) (h₁ : ∀ x ∈ l₁, ¬ r x o) (hmin : ∀ x ∈ l, r o x)
    (hm : l = m₁ ++ o' :: m₂) (h₁' : ∀ x ∈ m₁, ¬ r x o') (hmin' : ∀ x ∈ l, r o' x) :
    o = o' := by
  have key : l₁ ++ o :: l₂ = m₁ ++ o' :: m₂ := by rw [← hl, hm]
  rcases List.append_eq_append_iff.mp key with ⟨a, ha, hb⟩ | ⟨c, hc, hd⟩
  · cases a with
    | nil =>
      simp only [List.nil_append] at hb
      exact (List.cons.inj hb).1
    | cons y ys =>
      injection hb with hy _
      subst hy
      have homem : o ∈ m₁ := by rw [ha]; simp
      have ho'l : o' ∈ l := by rw [hm]; simp
      exact absurd (hmin o' ho'l) (h₁' o homem)
  · cases c with
    | nil =>
      simp only [List.nil_append] at hd
      exact ((List.cons.inj hd).1).symm
    | cons y ys =>
      injection hd with hy _
      subst hy
      have ho'mem : o' ∈ l₁ := by rw [hc]; simp
      have hol : o ∈ l := by rw [hl]; simp
      exact absurd (hmin' o hol) (h₁ o' ho'mem)

/-! ### Facts about the inventory dict operations -/

/-- A key absent from the inventory reads as quantity `0`. -/
theorem invContains_false_invGet (inv : Inventory) (k : String)
    (h : invContains inv k = false) : invGet inv k = 0 := by
  induction inv with
  | nil => rfl
  | cons e rest ih =>
    obtain ⟨k₀, v⟩ := e
    simp only [invContains, Bool.or_eq_false_iff, decide_eq_false_iff_not] at h
    simp only [invGet, if_neg h.1]
    exact ih h.2

/-- The debit raises `KeyError` exactly when the key is absent. -/
theorem invDebit_eq_none (inv : Inventory) (k : String) (q : Int) :
    invDebit inv k q = none ↔ invContains inv k = false := by
  induction inv with
  | nil => simp [invDebit, invContains]
  | cons e rest ih =>
    obtain ⟨k₀, v⟩ := e
    by_cases hk : k₀ = k
    · simp [invDebit, invContains, hk]
    · simp [invDebit, invContains, hk, ih]

/-- A successful debit subtracts exactly `q` at key `k`. -/
theorem invDebit_invGet_self (inv : Inventory) (k : String) (q : Int) :
    ∀ inv', invDebit inv k q = some inv' → invGet inv' k = invGet inv k - q := by
  induction inv with
  | nil =>
    intro inv' h
    simp [invDebit] at h
  | cons e rest ih =>
    obtain ⟨k₀, v⟩ := e
    intro inv' h
    by_cases hk : k₀ = k
    · rw [show invDebit ((k₀, v) :: rest) k q
          = if k₀ = k then some ((k₀, v - q) :: rest)
            else (invDebit rest k q).map (fun r => (k₀, v) :: r) from rfl,
        if_pos hk] at h
      obtain rfl := Option.some.inj h
      simp [invGet, hk]
    · rw [show invDebit ((k₀, v) :: rest) k q
          = if k₀ = k then some ((k₀, v - q) :: rest)
            else (invDebit rest k q).map (fun r => (k₀, v) :: r) from rfl,
        if_neg hk] at h
      cases hr : invDebit rest k q with
      | none => rw [hr] at h; simp at h
      | some r =>
        rw [hr] at h
        obtain rfl := Option.some.inj (by simpa using h)
        simp only [invGet, if_neg hk]
        exact ih r hr

/-- A successful debit at key `k` leaves every other key unchanged. -/
theorem invDebit_invGet_ne (inv : Inventory) (k : String) (q : Int) :
    ∀ inv', invDebit inv k q = some inv' →
      ∀ k', k' ≠ k → invGet inv' k' = invGet inv k' := by
  induction inv with
  | nil =>
    intro inv' h
    simp [invDebit] at h
  | cons e rest ih =>
    obtain ⟨k₀, v⟩ := e
    intro inv' h k' hk'
    by_cases hk : k₀ = k
    · rw [show invDebit ((k₀, v) :: rest) k q
          = if k₀ = k then some ((k₀, v - q) :: rest)
            else (invDebit rest k q).map (fun r => (k₀, v) :: r) from rfl,
        if_pos hk] at h
      obtain rfl := Option.some.inj h
      have hne : k₀ ≠ k' := fun hh => hk' (hh ▸ hk)
      simp [invGet, hne]
    · rw [show invDebit ((k₀, v) :: rest) k q
          = if k₀ = k then some ((k₀, v - q) :: rest)
            else (invDebit rest k q).map (fun r => (k₀, v) :: r) from rfl,
        if_neg hk] at h
      cases hr : invDebit rest k q with
      | none => rw [hr] at h; simp at h
      | some r =>
        rw [hr] at h
        obtain rfl := Option.some.inj (by simpa using h)
        by_cases h₀ : k₀ = k'
        · simp [invGet, h₀]
        · simp only [invGet, if_neg h₀]
          exact ih r hr k' hk'

/-- A successful debit does not add or remove keys. -/
theorem invDebit_invContains (inv : Inventory) (k : String) (q : Int) :
    ∀ inv', invDebit inv k q = some inv' →
      ∀ k', invContains inv' k' = invContains inv k' := by
  induction inv with
  | nil =>
    intro inv' h
    simp [invDebit] at h
  | cons e rest ih =>
    obtain ⟨k₀, v⟩ := e
    intro inv' h k'
    by_cases hk : k₀ = k
    · rw [show invDebit ((k₀, v) :: rest) k q
          = if k₀ = k then some ((k₀, v - q) :: rest)
            else (invDebit rest k q).map (fun r => (k₀, v) :: r) from rfl,
        if_pos hk] at h
      obtain rfl := Option.some.inj h
      rfl
    · rw [show invDebit ((k₀, v) :: rest) k q
          = if k₀ = k then some ((k₀, v - q) :: rest)
            else (invDebit rest k q).map (fun r => (k₀, v) :: r) from rfl,
        if_neg hk] at h
      cases hr : invDebit rest k q with
      | none => rw [hr] at h; simp at h
      | some r =>
        rw [hr] at h
        obtain rfl := Option.some.inj (by simpa using h)
        simp only [invContains]
        rw [ih r hr k']

/-- A debit covered by the current stock keeps every inventory quantity
non-negative. -/
theorem invDebit_nonneg (inv : Inventory) (k : String) (q : Int)
    (hpos : ∀ kv ∈ inv, 0 ≤ kv.2) (hq : q ≤ invGet inv k) :
    ∀ inv', invDebit inv k q = some inv' → ∀ kv ∈ inv', 0 ≤ kv.2 := by
  induction inv with
  | nil =>
    intro inv' h
    simp [invDebit] at h
  | cons e rest ih =>
    obtain ⟨k₀, v⟩ := e
    intro inv' h kv hkv
    by_cases hk : k₀ = k
    · rw [show invDebit ((k₀, v) :: rest) k q
          = if k₀ = k then some ((k₀, v - q) :: rest)
            else (invDebit rest k q).map (fun r => (k₀, v) :: r) from rfl,
        if_pos hk] at h
      obtain rfl := Option.some.inj h
      rcases List.mem_cons.mp hkv with hkv₀ | hkv₁
      · subst hkv₀
        have hv : invGet ((k₀, v) :: rest) k = v := by simp [invGet, hk]
        rw [hv] at hq
        simpa using sub_nonneg.mpr hq
      · exact hpos kv (List.mem_cons_of_mem _ hkv₁)
    · rw [show invDebit ((k₀, v) :: rest) k q
          = if k₀ = k then some ((k₀, v - q) :: rest)
            else (invDebit rest k q).map (fun r => (k₀, v) :: r) from rfl,
        if_neg hk] at h
      cases hr : invDebit rest k q with
      | none => rw [hr] at h; simp at h
      | some r =>
        rw [hr] at h
        obtain rfl := Option.some.inj (by simpa using h)
        rcases List.mem_cons.mp hkv with hkv₀ | hkv₁
        · subst hkv₀
          exact hpos (k₀, v) (List.mem_cons_self _ _)
        · have hq' : q ≤ invGet rest k := by
            rw [show invGet ((k₀, v) :: rest) k = if k₀ = k then v else invGet rest k from rfl,
              if_neg hk] at hq
            exact hq
          exact ih (fun kv hkv => hpos kv (List.mem_cons_of_mem _ hkv)) hq' r hr kv hkv₁

/-! ### Facts about eligibility and the shape of `next_order` -/

/-- Membership in the eligible subset is exactly the stock test of the list
comprehension. -/
theorem mem_available (p : OrderPicker) (o : Order) :
    o ∈ available_order p ↔ o ∈ p.orders ∧ o.quantity ≤ invGet p.inventory o.item := by
  simp [available_order, List.mem_filter, ge_iff_le]

/-- The sorted eligible list is empty exactly when the eligible subset is. -/
theorem sorted_order_eq_nil (p : OrderPicker) :
    sorted_order p = [] ↔ available_order p = [] := by
  constructor
  · intro h
    have hp := List.perm_insertionSort pickLE (available_order p)
    rw [sorted_order] at h
    rw [h] at hp
    exact (hp.symm).eq_nil
  · intro h
    rw [sorted_order, h]
    rfl

/-- Equation for `next_order` on an empty sorted eligible list: the
`IndexError` case of `sorted_order[0]`. -/
theorem next_order_eq_indexError (p : OrderPicker) (hs : sorted_order p = []) :
    next_order p = (Except.error PickError.indexError, p) := by
  simp only [next_order, hs]

/-- Equation for `next_order` when the winner's item is absent from the
inventory: the `KeyError` case of the debit. -/
theorem next_order_eq_keyError (p : OrderPicker) (o : Order) (rest : List Order)
    (hs : sorted_order p = o :: rest)
    (hd : invDebit p.inventory o.item o.quantity = none) :
    next_order p = (Except.error PickError.keyError, p) := by
  simp only [next_order, hs, hd]

/-- Equation for a successful `next_order`. -/
theorem next_order_eq_ok (p : OrderPicker) (o : Order) (rest : List Order)
    (inv : Inventory) (hs : sorted_order p = o :: rest)
    (hd : invDebit p.inventory o.item o.quantity = some inv) :
    next_order p = (Except.ok o, ⟨p.orders, inv⟩) := by
  simp only [next_order, hs, hd]

/-- Inversion of a successful pick: the winner heads the sorted eligible
list, the debit succeeded, and the new state keeps the same backlog. -/
theorem next_order_ok (p : OrderPicker) (o : Order) (p' : OrderPicker)
    (h : next_order p = (Except.ok o, p')) :
    ∃ rest inv', sorted_order p = o :: rest ∧
      invDebit p.inventory o.item o.quantity = some inv' ∧
      p' = ⟨p.orders, inv'⟩ := by
  unfold next_order at h
  split at h
  · simp at h
  · rename_i o₀ rest hs
    split at h
    · simp at h
    · rename_i inv hd
      simp only [Prod.mk.injEq] at h
      obtain ⟨h₁, h₂⟩ := h
      obtain rfl := Except.ok.inj h₁
      exact ⟨rest, inv, hs, hd, h₂.symm⟩

/-- A pick that raises an exception leaves the state unchanged. -/
theorem next_order_error (p : OrderPicker) (e : PickError)
    (h : (next_order p).1 = Except.error e) : (next_order p).2 = p := by
  cases hs : sorted_order p with
  | nil => rw [next_order_eq_indexError p hs]
  | cons o rest =>
    cases hd : invDebit p.inventory o.item o.quantity with
    | none => rw [next_order_eq_keyError p o rest hs hd]
    | some inv =>
      rw [next_order_eq_ok p o rest inv hs hd] at h
      simp at h

/-- The winner of a successful pick is eligible, minimal for the composite
sort key among the eligible subset, and the first such in backlog order. -/
theorem next_order_ok_min (p : OrderPicker) (o : Order) (p' : OrderPicker)
    (h : next_order p = (Except.ok o, p')) :
    o ∈ available_order p ∧
      (∀ x ∈ available_order p, sortKey o ≤ sortKey x) ∧
      ∃ l₁ l₂, available_order p = l₁ ++ o :: l₂ ∧
        ∀ x ∈ l₁, sortKey o < sortKey x := by
  obtain ⟨rest, inv', hs, _, _⟩ := next_order_ok p o p' h
  rw [sorted_order] at hs
  have hmin := insertionSort_head_min pickLE (available_order p) o rest hs
  obtain ⟨l₁, l₂, hsplit, hl₁⟩ := insertionSort_split pickLE (available_order p) o rest hs
  refine ⟨?_, hmin, l₁, l₂, hsplit, ?_⟩
  · rw [hsplit]
    simp
  · intro x hx
    exact not_le.mp (hl₁ x hx)

/-- The head of the sorted eligible list is an eligible order. -/
theorem head_mem_available (p : OrderPicker) (o : Order) (rest : List Order)
    (hs : sorted_order p = o :: rest) : o ∈ available_order p := by
  have hmem : o ∈ sorted_order p := by
    rw [hs]
    exact List.mem_cons_self o rest
  rw [sorted_order] at hmem
  exact ((List.perm_insertionSort pickLE (available_order p)).mem_iff).mp hmem

/-- If the winner has positive quantity, the eligibility test forces its
item to be present in the inventory, so the debit succeeds. -/
theorem head_debit_succeeds (p : OrderPicker) (o : Order) (rest : List Order)
    (hs : sorted_order p = o :: rest) (hq : 0 < o.quantity) :
    invContains p.inventory o.item = true ∧
    ∃ inv, invDebit p.inventory o.item o.quantity = some inv := by
  have hstock : o.quantity ≤ invGet p.inventory o.item :=
    ((mem_available p o).mp (head_mem_available p o rest hs)).2
  have hcont : invContains p.inventory o.item = true := by
    cases hc : invContains p.inventory o.item with
    | true => rfl
    | false =>
      have h0 := invContains_false_invGet p.inventory o.item hc
      rw [h0] at hstock
      omega
  refine ⟨hcont, ?_⟩
  cases hd : invDebit p.inventory o.item o.quantity with
  | none =>
    rw [(invDebit_eq_none _ _ _).mp hd] at hcont
    exact absurd hcont (by simp)
  | some inv => exact ⟨inv, rfl⟩

/-! ### The claims -/

/-- Claim C1, the code's actual behavior at the claimed states: whenever
the eligible subset is empty (in particular on an empty backlog),
`next_order` does not return the no-eligible-order signal the spec and the
route's else-branch expect, but raises `IndexError` (`sorted_order[0]` on
an empty list); the inventory is left unchanged. -/
theorem C1_empty_eligible_raises (p : OrderPicker)
    (h : available_order p = []) :
    next_order p = (Except.error PickError.indexError, p) :=
  next_order_eq_indexError p ((sorted_order_eq_nil p).mpr h)

/-- Claim C1 witness: the initial process state of routes.py (empty
backlog, starting inventory) raises `IndexError` on `next_order`. -/
theorem C1_empty_eligible_raises_witness :
    available_order ⟨[], [("apple", 29), ("bread", 12), ("Milk", 5)]⟩ = [] ∧
    next_order ⟨[], [("apple", 29), ("bread", 12), ("Milk", 5)]⟩ =
      (Except.error PickError.indexError,
        ⟨[], [("apple", 29), ("bread", 12), ("Milk", 5)]⟩) :=
  ⟨rfl, C1_empty_eligible_raises ⟨[], [("apple", 29), ("bread", 12), ("Milk", 5)]⟩ rfl⟩

/-- Claim C3: a successful `next_order` returning O debits exactly
`O.quantity` from the inventory entry of `O.item`, changes no other
inventory entry, and leaves the backlog unchanged: the picked order is not
removed. -/
theorem C3_debit_frame (p : OrderPicker) (o : Order) (p' : OrderPicker)
    (h : next_order p = (Except.ok o, p')) :
    invGet p'.inventory o.item = invGet p.inventory o.item - o.quantity ∧
    (∀ k, k ≠ o.item → invGet p'.inventory k = invGet p.inventory k) ∧
    p'.orders = p.orders := by
  obtain ⟨rest, inv', hs, hd, hp⟩ := next_order_ok p o p' h
  subst hp
  exact ⟨invDebit_invGet_self _ _ _ inv' hd,
    fun k hk => invDebit_invGet_ne _ _ _ inv' hd k hk, rfl⟩

/-- Claim C3 witness, on the spec's section-8 scenario: apple stock drops
from 5 to 2, the stock of an unrelated item is untouched, the backlog
keeps both orders. -/
theorem C3_debit_frame_witness :
    invGet [("apple", 2)] "apple" = invGet [("apple", 5)] "apple" - 3 ∧
    invGet [("apple", 2)] "bread" = invGet [("apple", 5)] "bread" ∧
    ([⟨"apple", 3, "perishable", "T1"⟩, ⟨"apple", 2, "non_perishable", "T0"⟩] : List Order)
      = [⟨"apple", 3, "perishable", "T1"⟩, ⟨"apple", 2, "non_perishable", "T0"⟩] := by
  have h := C3_debit_frame
    ⟨[⟨"apple", 3, "perishable", "T1"⟩, ⟨"apple", 2, "non_perishable", "T0"⟩], [("apple", 5)]⟩
    ⟨"apple", 3, "perishable", "T1"⟩
    ⟨[⟨"apple", 3, "perishable", "T1"⟩, ⟨"apple", 2, "non_perishable", "T0"⟩], [("apple", 2)]⟩
    rfl
  exact ⟨h.1, h.2.1 "bread" (by decide), h.2.2⟩

/-- Claim C4: the eligible subset consists of exactly the backlog orders
whose item's stock covers their quantity; an item absent from the
inventory reads as stock 0 -- never an error -- so such an order is
eligible exactly when its own quantity is at most 0. -/
theorem C4_eligible_exactly (p : OrderPicker) (o : Order) :
    (o ∈ available_order p ↔ o ∈ p.orders ∧ o.quantity ≤ invGet p.inventory o.item) ∧
    (invContains p.inventory o.item = false →
      (o ∈ available_order p ↔ o ∈ p.orders ∧ o.quantity ≤ 0)) := by
  refine ⟨mem_available p o, fun habs => ?_⟩
  rw [mem_available p o, invContains_false_invGet _ _ habs]

/-- Claim C4 witness: an order for an item missing from the inventory,
with quantity -2, is eligible (0 stock covers a non-positive quantity). -/
theorem C4_eligible_exactly_witness :
    ((⟨"ghost", -2, "perishable", "T0"⟩ : Order)
        ∈ available_order ⟨[⟨"ghost", -2, "perishable", "T0"⟩], [("apple", 5)]⟩ ↔
      (⟨"ghost", -2, "perishable", "T0"⟩ : Order) ∈ [(⟨"ghost", -2, "perishable", "T0"⟩ : Order)] ∧
        (⟨"ghost", -2, "perishable", "T0"⟩ : Order).quantity
          ≤ invGet [("apple", 5)] (⟨"ghost", -2, "perishable", "T0"⟩ : Order).item) ∧
    (invContains [("apple", 5)] (⟨"ghost", -2, "perishable", "T0"⟩ : Order).item = false →
      ((⟨"ghost", -2, "perishable", "T0"⟩ : Order)
          ∈ available_order ⟨[⟨"ghost", -2, "perishable", "T0"⟩], [("apple", 5)]⟩ ↔
        (⟨"ghost", -2, "perishable", "T0"⟩ : Order) ∈ [(⟨"ghost", -2, "perishable", "T0"⟩ : Order)] ∧
          (⟨"ghost", -2, "perishable", "T0"⟩ : Order).quantity ≤ 0)) :=
  C4_eligible_exactly ⟨[⟨"ghost", -2, "perishable", "T0"⟩], [("apple", 5)]⟩
    ⟨"ghost", -2, "perishable", "T0"⟩

/-- Claim C5: the winner of a successful pick is minimal for the composite
key among the eligible subset -- so among equal-priority eligible orders an
earlier timestamp wins -- and every eligible order placed before the winner
in the backlog has a strictly larger key: full-key ties are resolved by
backlog (insertion) position, i.e. the ranking is stable. -/
theorem C5_stable_ranking (p : OrderPicker) (o : Order) (p' : OrderPicker)
    (h : next_order p = (Except.ok o, p')) :
    (∀ x ∈ available_order p, sortKey o ≤ sortKey x) ∧
    (∀ x ∈ available_order p,
      categoryPriority x.category = categoryPriority o.category →
        o.timestamp.data ≤ x.timestamp.data) ∧
    ∃ l₁ l₂, available_order p = l₁ ++ o :: l₂ ∧ ∀ x ∈ l₁, sortKey o < sortKey x := by
  obtain ⟨_, hmin, hsplit⟩ := next_order_ok_min p o p' h
  refine ⟨hmin, fun x hx hcat => ?_, hsplit⟩
  rcases (Prod.Lex.le_iff _ _).mp (hmin x hx) with hlt | ⟨_, hts⟩
  · exact absurd hcat (by exact fun hh => absurd (hh ▸ hlt) (lt_irrefl _))
  · exact hts

/-- Claim C5 witness: with two eligible perishable orders sharing the
timestamp, the backlog-first one wins, and its key is at most its rival's. -/
theorem C5_stable_ranking_witness :
    sortKey ⟨"apple", 1, "perishable", "T0"⟩ ≤ sortKey ⟨"apple", 2, "perishable", "T0"⟩ :=
  (C5_stable_ranking
      ⟨[⟨"apple", 1, "perishable", "T0"⟩, ⟨"apple", 2, "perishable", "T0"⟩], [("apple", 9)]⟩
      ⟨"apple", 1, "perishable", "T0"⟩
      ⟨[⟨"apple", 1, "perishable", "T0"⟩, ⟨"apple", 2, "perishable", "T0"⟩], [("apple", 8)]⟩
      rfl).1
    ⟨"apple", 2, "perishable", "T0"⟩ (by decide)

/-- Claim C8: if every inventory quantity is non-negative before a
`next_order` call, every inventory quantity is non-negative after it: the
eligibility check precedes the debit, and an exception leaves the
inventory unchanged. -/
theorem C8_nonneg_preserved (p : OrderPicker)
    (hpos : ∀ kv ∈ p.inventory, 0 ≤ kv.2) :
    ∀ kv ∈ (next_order p).2.inventory, 0 ≤ kv.2 := by
  cases hs : sorted_order p with
  | nil =>
    rw [next_order_eq_indexError p hs]
    exact hpos
  | cons o rest =>
    cases hd : invDebit p.inventory o.item o.quantity with
    | none =>
      rw [next_order_eq_keyError p o rest hs hd]
      exact hpos
    | some inv =>
      rw [next_order_eq_ok p o rest inv hs hd]
      have hstock : o.quantity ≤ invGet p.inventory o.item :=
        ((mem_available p o).mp (head_mem_available p o rest hs)).2
      exact invDebit_nonneg p.inventory o.item o.quantity hpos hstock inv hd

/-- Claim C8 witness: after the section-8 pick the debited entry
(apple, 2) is still non-negative. -/
theorem C8_nonneg_preserved_witness : 0 ≤ (("apple", (2 : Int))).2 :=
  C8_nonneg_preserved
    ⟨[⟨"apple", 3, "perishable", "T1"⟩, ⟨"apple", 2, "non_perishable", "T0"⟩], [("apple", 5)]⟩
    (by decide) ("apple", 2) (by decide)

/-- Claim C2 counterexample: a state whose eligible subset is non-empty
(one order of quantity 0 on an item absent from the inventory) on which
`next_order` returns no order at all: the debit raises `KeyError`. -/
theorem C2_counterexample :
    available_order ⟨[⟨"ghost", 0, "perishable", "T1"⟩], []⟩ ≠ [] ∧
    next_order ⟨[⟨"ghost", 0, "perishable", "T1"⟩], []⟩ =
      (Except.error PickError.keyError, ⟨[⟨"ghost", 0, "perishable", "T1"⟩], []⟩) :=
  ⟨by decide, rfl⟩

/-- Claim C2 (amended): for every state with a non-empty eligible subset
whose backlog orders all have positive quantity (the data model's
invariant on `quantity`), `next_order` returns the eligible order minimal
for the ascending composite key (category priority, timestamp), where
`perishable` and unknown categories map to priority 0 and `non_perishable`
to 1; in particular an eligible order never loses to an eligible rival of
strictly larger category priority, whatever the timestamps. -/
theorem C2_min_key (p : OrderPicker)
    (hpos : ∀ x ∈ p.orders, 0 < x.quantity)
    (hne : available_order p ≠ []) :
    ∃ o p', next_order p = (Except.ok o, p') ∧
      o ∈ available_order p ∧
      (∀ x ∈ available_order p, sortKey o ≤ sortKey x) ∧
      ∀ A ∈ available_order p, ∀ B ∈ available_order p,
        categoryPriority A.category < categoryPriority B.category → o ≠ B := by
  cases hs : sorted_order p with
  | nil => exact absurd ((sorted_order_eq_nil p).mp hs) hne
  | cons o rest =>
    have hoav : o ∈ available_order p := head_mem_available p o rest hs
    have hq : 0 < o.quantity := hpos o ((mem_available p o).mp hoav).1
    obtain ⟨_, inv, hd⟩ := head_debit_succeeds p o rest hs hq
    have hmin := insertionSort_head_min pickLE (available_order p) o rest
      (by rw [← sorted_order]; exact hs)
    refine ⟨o, ⟨p.orders, inv⟩, next_order_eq_ok p o rest inv hs hd, hoav, hmin, ?_⟩
    intro A hA B hB hAB hoB
    have h₁ : sortKey o ≤ sortKey A := hmin A hA
    have h₂ : sortKey A < sortKey B := by
      rw [sortKey, sortKey]
      exact (Prod.Lex.lt_iff _ _).mpr (Or.inl hAB)
    rw [hoB] at h₁
    exact absurd (lt_of_le_of_lt h₁ h₂) (lt_irrefl _)

/-- Claim C2 witness, on the spec's section-8 scenario: both hypotheses
hold and the theorem produces the winner. -/
theorem C2_min_key_witness :
    (∀ x ∈ ([⟨"apple", 3, "perishable", "T1"⟩,
        ⟨"apple", 2, "non_perishable", "T0"⟩] : List Order), 0 < x.quantity) ∧
    available_order ⟨[⟨"apple", 3, "perishable", "T1"⟩,
        ⟨"apple", 2, "non_perishable", "T0"⟩], [("apple", 5)]⟩ ≠ [] ∧
    ∃ o p', next_order ⟨[⟨"apple", 3, "perishable", "T1"⟩,
        ⟨"apple", 2, "non_perishable", "T0"⟩], [("apple", 5)]⟩ = (Except.ok o, p') ∧
      o ∈ available_order ⟨[⟨"apple", 3, "perishable", "T1"⟩,
        ⟨"apple", 2, "non_perishable", "T0"⟩], [("apple", 5)]⟩ ∧
      (∀ x ∈ available_order ⟨[⟨"apple", 3, "perishable", "T1"⟩,
        ⟨"apple", 2, "non_perishable", "T0"⟩], [("apple", 5)]⟩, sortKey o ≤ sortKey x) ∧
      ∀ A ∈ available_order ⟨[⟨"apple", 3, "perishable", "T1"⟩,
          ⟨"apple", 2, "non_perishable", "T0"⟩], [("apple", 5)]⟩,
        ∀ B ∈ available_order ⟨[⟨"apple", 3, "perishable", "T1"⟩,
          ⟨"apple", 2, "non_perishable", "T0"⟩], [("apple", 5)]⟩,
          categoryPriority A.category < categoryPriority B.category → o ≠ B :=
  ⟨by decide, by decide,
    C2_min_key ⟨[⟨"apple", 3, "perishable", "T1"⟩,
      ⟨"apple", 2, "non_perishable", "T0"⟩], [("apple", 5)]⟩ (by decide) (by decide)⟩

/-- Claim C7 counterexample: a first-ranked eligible order (quantity -2 on
an item absent from the inventory) for which the inventory does not
contain the item and the unconditional debit does fail, with `KeyError`. -/
theorem C7_counterexample :
    sorted_order ⟨[⟨"phantom", -2, "non_perishable", "T3"⟩], [("apple", 5)]⟩
      = [⟨"phantom", -2, "non_perishable", "T3"⟩] ∧
    invContains [("apple", 5)] "phantom" = false ∧
    next_order ⟨[⟨"phantom", -2, "non_perishable", "T3"⟩], [("apple", 5)]⟩
      = (Except.error PickError.keyError,
          ⟨[⟨"phantom", -2, "non_perishable", "T3"⟩], [("apple", 5)]⟩) :=
  ⟨rfl, rfl, rfl⟩

/-- Claim C7 (amended): whenever `next_order` selects a first-ranked
eligible order of positive quantity (the data model's invariant on
`quantity`), the eligibility filter guarantees the inventory already
contains an entry for its item, so the unconditional debit cannot fail and
the call returns the order. -/
theorem C7_debit_safe (p : OrderPicker) (o : Order) (rest : List Order)
    (hs : sorted_order p = o :: rest) (hq : 0 < o.quantity) :
    invContains p.inventory o.item = true ∧
    ∃ inv, invDebit p.inventory o.item o.quantity = some inv ∧
      next_order p = (Except.ok o, ⟨p.orders, inv⟩) := by
  obtain ⟨hcont, inv, hd⟩ := head_debit_succeeds p o rest hs hq
  exact ⟨hcont, inv, hd, next_order_eq_ok p o rest inv hs hd⟩

/-- Claim C7 witness, on the spec's section-8 scenario: the winner's item
is present and the debit succeeds. -/
theorem C7_debit_safe_witness :
    sorted_order ⟨[⟨"apple", 3, "perishable", "T1"⟩,
        ⟨"apple", 2, "non_perishable", "T0"⟩], [("apple", 5)]⟩
      = ⟨"apple", 3, "perishable", "T1"⟩ :: [⟨"apple", 2, "non_perishable", "T0"⟩] ∧
    0 < (⟨"apple", 3, "perishable", "T1"⟩ : Order).quantity ∧
    (invContains [("apple", 5)] (⟨"apple", 3, "perishable", "T1"⟩ : Order).item = true ∧
      ∃ inv, invDebit [("apple", 5)] (⟨"apple", 3, "perishable", "T1"⟩ : Order).item
          (⟨"apple", 3, "perishable", "T1"⟩ : Order).quantity = some inv ∧
        next_order ⟨[⟨"apple", 3, "perishable", "T1"⟩,
            ⟨"apple", 2, "non_perishable", "T0"⟩], [("apple", 5)]⟩
          = (Except.ok ⟨"apple", 3, "perishable", "T1"⟩,
              ⟨[⟨"apple", 3, "perishable", "T1"⟩,
                ⟨"apple", 2, "non_perishable", "T0"⟩], inv⟩)) :=
  ⟨rfl, by decide,
    C7_debit_safe ⟨[⟨"apple", 3, "perishable", "T1"⟩,
        ⟨"apple", 2, "non_perishable", "T0"⟩], [("apple", 5)]⟩
      ⟨"apple", 3, "perishable", "T1"⟩ [⟨"apple", 2, "non_perishable", "T0"⟩]
      rfl (by decide)⟩

/-- Claim C6: submitting a record lacking at least one of the four
required keys fails with the validation error whose message comma-joins
exactly the missing keys; the missing-key list is a sublist of the
canonical field order (item, quantity, category, timestamp), so the keys
appear in that order; the backlog and the inventory are unchanged. -/
theorem C6_submit_missing (p : OrderPickerR) (order : RawRec)
    (hmiss : ∃ f ∈ required_field, hasKey order f = false) :
    submit_order p order =
      (Except.error ("Missing field:" ++ String.intercalate "," (missingFields order)), p) ∧
    (∀ f, f ∈ missingFields order ↔ f ∈ required_field ∧ hasKey order f = false) ∧
    (missingFields order).Sublist required_field := by
  have hne : missingFields order ≠ [] := by
    obtain ⟨f, hf, hk⟩ := hmiss
    intro hnil
    have hfm : f ∈ missingFields order := by
      rw [missingFields, List.mem_filter]
      exact ⟨hf, by rw [hk]; rfl⟩
    rw [hnil] at hfm
    exact absurd hfm (List.not_mem_nil f)
  refine ⟨?_, ?_, List.filter_sublist _⟩
  · simp only [submit_order, if_neg hne]
  · intro f
    rw [missingFields, List.mem_filter]
    simp [Bool.not_eq_true']

/-- Claim C6 witness: a record carrying only `category` is rejected with
the message naming item, quantity and timestamp in canonical order, and
the state survives untouched. -/
theorem C6_submit_missing_witness :
    (∃ f ∈ required_field, hasKey [("category", PyVal.str "perishable")] f = false) ∧
    String.intercalate "," (missingFields [("category", PyVal.str "perishable")])
      = "item,quantity,timestamp" ∧
    submit_order ⟨[], [("apple", 5)]⟩ [("category", PyVal.str "perishable")] =
      (Except.error ("Missing field:"
          ++ String.intercalate "," (missingFields [("category", PyVal.str "perishable")])),
        ⟨[], [("apple", 5)]⟩) :=
  ⟨by decide, by decide,
    (C6_submit_missing ⟨[], [("apple", 5)]⟩ [("category", PyVal.str "perishable")]
      (by decide)).1⟩

/-- Claim C9: submitting a record containing all four required keys
appends it unchanged -- no normalization, no canonicalization, no parsing,
extra keys retained -- at the end of the backlog; the call returns unit
and the inventory is untouched. -/
theorem C9_submit_success (p : OrderPickerR) (order : RawRec)
    (hall : ∀ f ∈ required_field, hasKey order f = true) :
    submit_order p order = (Except.ok (), ⟨p.orders ++ [order], p.inventory⟩) := by
  have hnil : missingFields order = [] := by
    rw [missingFields, List.filter_eq_nil_iff]
    intro f hf
    simp [hall f hf]
  simp [submit_order, hnil]

/-- Claim C9 witness: a record with all four keys plus an extra key is
appended verbatim, extra key and all, and the inventory stays the same. -/
theorem C9_submit_success_witness :
    (∀ f ∈ required_field,
      hasKey [("item", PyVal.str "apple"), ("quantity", PyVal.int 2),
        ("category", PyVal.str "perishable"), ("timestamp", PyVal.str "T0"),
        ("note", PyVal.str "extra")] f = true) ∧
    submit_order ⟨[], [("apple", 5)]⟩
        [("item", PyVal.str "apple"), ("quantity", PyVal.int 2),
          ("category", PyVal.str "perishable"), ("timestamp", PyVal.str "T0"),
          ("note", PyVal.str "extra")]
      = (Except.ok (),
          ⟨[[("item", PyVal.str "apple"), ("quantity", PyVal.int 2),
              ("category", PyVal.str "perishable"), ("timestamp", PyVal.str "T0"),
              ("note", PyVal.str "extra")]], [("apple", 5)]⟩) :=
  ⟨by decide,
    C9_submit_success ⟨[], [("apple", 5)]⟩
      [("item", PyVal.str "apple"), ("quantity", PyVal.int 2),
        ("category", PyVal.str "perishable"), ("timestamp", PyVal.str "T0"),
        ("note", PyVal.str "extra")] (by decide)⟩

/-- Debiting a non-negative quantity never raises any stock reading. -/
theorem invDebit_invGet_le (inv : Inventory) (k : String) (q : Int) (hq : 0 ≤ q) :
    ∀ inv', invDebit inv k q = some inv' → ∀ k', invGet inv' k' ≤ invGet inv k' := by
  intro inv' hd k'
  by_cases hk : k' = k
  · subst hk
    rw [invDebit_invGet_self inv k' q inv' hd]
    omega
  · rw [invDebit_invGet_ne inv k q inv' hd k' hk]

/-- A successful debit keeps the debited key in the inventory. -/
theorem invDebit_some_contains (inv : Inventory) (k : String) (q : Int)
    (inv' : Inventory) (hd : invDebit inv k q = some inv') :
    invContains inv k = true := by
  cases hc : invContains inv k with
  | true => rfl
  | false =>
    rw [(invDebit_eq_none inv k q).mpr hc] at hd
    exact absurd hd (by simp)

/-- If a pick succeeds with a winner of non-negative quantity and the
remaining stock still covers that winner, the immediately following call
picks the same order again: the backlog is unchanged, no rival became
better ranked (stock only decreased), and the winner's entry is still
present for the debit. -/
theorem repick_step (p : OrderPicker) (o : Order) (p₁ : OrderPicker)
    (h : next_order p = (Except.ok o, p₁)) (hq : 0 ≤ o.quantity)
    (hstock : o.quantity ≤ invGet p₁.inventory o.item) :
    ∃ inv₂, invDebit p₁.inventory o.item o.quantity = some inv₂ ∧
      next_order p₁ = (Except.ok o, ⟨p₁.orders, inv₂⟩) := by
  obtain ⟨hoav, hmin, l₁, l₂, hsplit, hl₁⟩ := next_order_ok_min p o p₁ h
  obtain ⟨rest, inv₁, hs, hd, hp⟩ := next_order_ok p o p₁ h
  subst hp
  have hstock' : o.quantity ≤ invGet inv₁ o.item := hstock
  have hmono : ∀ k, invGet inv₁ k ≤ invGet p.inventory k :=
    invDebit_invGet_le p.inventory o.item o.quantity hq inv₁ hd
  have hfilter : available_order ⟨p.orders, inv₁⟩
      = (available_order p).filter (fun x => invGet inv₁ x.item ≥ x.quantity) := by
    rw [show available_order p
        = p.orders.filter (fun x => invGet p.inventory x.item ≥ x.quantity) from rfl,
      List.filter_filter]
    apply List.filter_congr
    intro x _
    cases hf : (decide (invGet inv₁ x.item ≥ x.quantity)) with
    | false => rfl
    | true =>
      have hx : x.quantity ≤ invGet inv₁ x.item := of_decide_eq_true hf
      have : x.quantity ≤ invGet p.inventory x.item := le_trans hx (hmono x.item)
      simp [this]
  have hoav₁ : o ∈ available_order ⟨p.orders, inv₁⟩ := by
    rw [hfilter, List.mem_filter]
    exact ⟨hoav, by simp [hstock']⟩
  cases hs₁ : sorted_order ⟨p.orders, inv₁⟩ with
  | nil =>
    rw [sorted_order_eq_nil] at hs₁
    rw [hs₁] at hoav₁
    exact absurd hoav₁ (List.not_mem_nil o)
  | cons o' rest' =>
    have ho'min := insertionSort_head_min pickLE (available_order ⟨p.orders, inv₁⟩) o' rest'
      (by rw [← sorted_order]; exact hs₁)
    obtain ⟨m₁, m₂, hm, hm₁⟩ := insertionSort_split pickLE
      (available_order ⟨p.orders, inv₁⟩) o' rest' (by rw [← sorted_order]; exact hs₁)
    have hosplit : available_order ⟨p.orders, inv₁⟩
        = (l₁.filter (fun x => invGet inv₁ x.item ≥ x.quantity)) ++ o ::
          (l₂.filter (fun x => invGet inv₁ x.item ≥ x.quantity)) := by
      rw [hfilter, hsplit, List.filter_append]
      congr 1
      rw [List.filter_cons]
      simp [hstock']
    have homin : ∀ x ∈ available_order ⟨p.orders, inv₁⟩, pickLE o x := by
      intro x hx
      rw [hfilter] at hx
      exact hmin x (List.mem_of_mem_filter hx)
    have hopre : ∀ x ∈ l₁.filter (fun x => invGet inv₁ x.item ≥ x.quantity),
        ¬ pickLE x o := by
      intro x hx
      exact not_le.mpr (hl₁ x (List.mem_of_mem_filter hx))
    have ho'o : o = o' := first_min_unique pickLE
      (available_order ⟨p.orders, inv₁⟩) _ _ m₁ m₂ o o'
      hosplit hopre homin hm hm₁ ho'min
    subst ho'o
    have hcont₁ : invContains inv₁ o.item = true := by
      rw [invDebit_invContains p.inventory o.item o.quantity inv₁ hd o.item]
      exact invDebit_some_contains p.inventory o.item o.quantity inv₁ hd
    cases hd₁ : invDebit inv₁ o.item o.quantity with
    | none =>
      rw [(invDebit_eq_none inv₁ o.item o.quantity).mp hd₁] at hcont₁
      exact absurd hcont₁ (by simp)
    | some inv₂ =>
      exact ⟨inv₂, rfl, next_order_eq_ok ⟨p.orders, inv₁⟩ o rest' inv₂ hs₁ hd₁⟩

/-- Induction core for repeated picking: while the stock budget lasts,
every call returns the same winner and its item's stock falls linearly. -/
theorem pickSteps_invariant (p : OrderPicker) (o : Order) (p₁ : OrderPicker)
    (h : next_order p = (Except.ok o, p₁)) (hq : 0 ≤ o.quantity) :
    ∀ n : Nat, ((n : Int) + 1) * o.quantity ≤ invGet p.inventory o.item →
      next_order (pickSteps n p) = (Except.ok o, pickSteps (n + 1) p) ∧
      invGet (pickSteps (n + 1) p).inventory o.item
        = invGet p.inventory o.item - ((n : Int) + 1) * o.quantity := by
  have hfirst : invGet p₁.inventory o.item
      = invGet p.inventory o.item - o.quantity := by
    obtain ⟨rest, inv₁, hs, hd, hp⟩ := next_order_ok p o p₁ h
    subst hp
    exact invDebit_invGet_self _ _ _ inv₁ hd
  intro n
  induction n with
  | zero =>
    intro _
    constructor
    · show next_order p = (Except.ok o, (next_order p).2)
      rw [h]
    · show invGet ((next_order p).2).inventory o.item
        = invGet p.inventory o.item - (((0 : Nat) : Int) + 1) * o.quantity
      rw [h, hfirst]
      push_cast
      ring
  | succ n ih =>
    intro hbudget
    have hexp : (((n + 1 : Nat) : Int) + 1) * o.quantity
        = ((n : Int) + 1) * o.quantity + o.quantity := by push_cast; ring
    rw [hexp] at hbudget
    have hstepbudget : ((n : Int) + 1) * o.quantity ≤ invGet p.inventory o.item := by
      linarith
    obtain ⟨hstep, hinv⟩ := ih hstepbudget
    have hstock₂ : o.quantity ≤ invGet (pickSteps (n + 1) p).inventory o.item := by
      rw [hinv]
      linarith
    obtain ⟨inv₂, hd₂, hnext⟩ :=
      repick_step (pickSteps n p) o (pickSteps (n + 1) p) hstep hq hstock₂
    constructor
    · show next_order (pickSteps (n + 1) p)
        = (Except.ok o, (next_order (pickSteps (n + 1) p)).2)
      rw [hnext]
    · show invGet ((next_order (pickSteps (n + 1) p)).2).inventory o.item
        = invGet p.inventory o.item - (((n + 1 : Nat) : Int) + 1) * o.quantity
      rw [hnext]
      show invGet inv₂ o.item
        = invGet p.inventory o.item - (((n + 1 : Nat) : Int) + 1) * o.quantity
      rw [invDebit_invGet_self _ _ _ inv₂ hd₂, hinv, hexp]
      ring

/-- Claim C10 counterexample: order O of negative quantity wins the pick,
the debit replenishes the stock from 5 to 6, O's stock condition still
holds after the call, yet the immediately following call picks the rival
X (same priority, earlier timestamp) that the replenished stock has made
eligible -- not O. -/
theorem C10_counterexample :
    next_order ⟨[⟨"a", 6, "perishable", "T0"⟩, ⟨"a", -1, "perishable", "T5"⟩], [("a", 5)]⟩
      = (Except.ok ⟨"a", -1, "perishable", "T5"⟩,
          ⟨[⟨"a", 6, "perishable", "T0"⟩, ⟨"a", -1, "perishable", "T5"⟩], [("a", 6)]⟩) ∧
    (⟨"a", -1, "perishable", "T5"⟩ : Order).quantity
      ≤ invGet [("a", 6)] (⟨"a", -1, "perishable", "T5"⟩ : Order).item ∧
    (next_order ⟨[⟨"a", 6, "perishable", "T0"⟩, ⟨"a", -1, "perishable", "T5"⟩],
        [("a", 6)]⟩).1
      = Except.ok ⟨"a", 6, "perishable", "T0"⟩ ∧
    (⟨"a", 6, "perishable", "T0"⟩ : Order) ≠ ⟨"a", -1, "perishable", "T5"⟩ :=
  ⟨rfl, by decide, rfl, by decide⟩

/-- Claim C10 (amended): picked orders stay in the backlog, so no
replenishment is needed for a repeat pick -- provided the winner's
quantity is non-negative (the data model's invariant): if O wins a pick
and n+1 times its quantity is covered by the initial stock, the n+1
consecutive `next_order` calls all pick O, and the stock of O's item ends
exactly n+1 times O's quantity lower. -/
theorem C10_repeat (p : OrderPicker) (o : Order) (p₁ : OrderPicker)
    (h : next_order p = (Except.ok o, p₁)) (hq : 0 ≤ o.quantity) (n : Nat)
    (hbudget : ((n : Int) + 1) * o.quantity ≤ invGet p.inventory o.item) :
    (∀ k, k ≤ n → (next_order (pickSteps k p)).1 = Except.ok o) ∧
    invGet (pickSteps (n + 1) p).inventory o.item
      = invGet p.inventory o.item - ((n : Int) + 1) * o.quantity := by
  constructor
  · intro k hk
    have hkn : ((k : Int) + 1) ≤ ((n : Int) + 1) := by
      have : (k : Int) ≤ (n : Int) := by exact_mod_cast hk
      linarith
    have hbk : ((k : Int) + 1) * o.quantity ≤ invGet p.inventory o.item :=
      le_trans (mul_le_mul_of_nonneg_right hkn hq) hbudget
    rw [(pickSteps_invariant p o p₁ h hq k hbk).1]
  · exact (pickSteps_invariant p o p₁ h hq n hbudget).2

/-- Claim C10 witness: stock 7 of apple feeds three consecutive picks of
the same quantity-2 order, leaving stock 1. -/
theorem C10_repeat_witness :
    (next_order (pickSteps 2 ⟨[⟨"apple", 2, "perishable", "T0"⟩], [("apple", 7)]⟩)).1
      = Except.ok ⟨"apple", 2, "perishable", "T0"⟩ ∧
    invGet (pickSteps (2 + 1)
        ⟨[⟨"apple", 2, "perishable", "T0"⟩], [("apple", 7)]⟩).inventory
        (⟨"apple", 2, "perishable", "T0"⟩ : Order).item
      = invGet [("apple", 7)] (⟨"apple", 2, "perishable", "T0"⟩ : Order).item
        - (((2 : Nat) : Int) + 1) * (⟨"apple", 2, "perishable", "T0"⟩ : Order).quantity := by
  have h := C10_repeat ⟨[⟨"apple", 2, "perishable", "T0"⟩], [("apple", 7)]⟩
    ⟨"apple", 2, "perishable", "T0"⟩
    ⟨[⟨"apple", 2, "perishable", "T0"⟩], [("apple", 5)]⟩
    rfl (by decide) 2 (by decide)
  exact ⟨h.1 2 (le_refl 2), h.2⟩

end Warehouse
